import Mathlib

/-!
Shallow embedding of the Inconsistent Replication (IR) library core:
the quorum engine (`src/utils.rs`), the client invocation paths
(`src/client/mod.rs`), the replica message handlers (`src/server/mod.rs`)
and the record store used by the test storage
(`src/io/test_utils/mock_record_store.rs`, `src/io/test_utils/fake_storage.rs`).

Node identifiers and messages are generic in the Rust source (any totally
ordered clonable type); they are instantiated with `Nat` here.  `BTreeMap`
and `BTreeSet` values are represented as association lists sorted by key
and sorted duplicate-free lists respectively, which matches their canonical
iteration order.  Rust panics (`assert!`, `unwrap`, non-exhaustive matches)
are modelled as an explicit `panicked` outcome.  The integer-to-`f32` cast
inside `f` is modelled faithfully (`roundF32`: IEEE-754 binary32
round-to-nearest, ties to even, at 24 significant bits); the remaining
float steps of `f` (`/ 2.0`, `.ceil()`, the cast back) are exact and are
modelled as exact rational arithmetic (`ceil(a/2) = (a+1)/2` on naturals).
In `fast_quorum` the `f32` conversion of `3*f + 1` and the following
`+ 1f32` are modelled as exact; they coincide with the code whenever
`3*f + 1 < 2^24`, which holds in every theorem of this file that unfolds
them.
-/

namespace IR

/-- View state tag, from `enum ViewState` in `src/server/mod.rs`. -/
inductive ViewState
  | normal
  | viewChanging
  | recovery
deriving DecidableEq

/-- `struct View` from `src/server/mod.rs`: a view number, the ordered member
list, and a state tag. -/
structure View where
  view : Nat
  members : List Nat
  state : ViewState
deriving DecidableEq

/-- `QuorumVote` from `src/utils.rs`: one replica response assembled by the
client, carrying the responding node, its message and its view. -/
structure Vote where
  node : Nat
  message : Nat
  view : View
deriving DecidableEq

/-- Fuel-driven helper for `roundF32`: the smallest `k` with
`x < 2 ^ (24 + k)`, i.e. the base-2 exponent of the unit in the last place
of `x` as an IEEE-754 binary32 value.  Fuel 64 makes it total and correct
on the whole 64-bit range of `usize`. -/
def ulpExpAux : Nat → Nat → Nat
  | 0, _ => 0
  | fuel + 1, x => if x < 2 ^ 24 then 0 else ulpExpAux fuel (x / 2) + 1

/-- The ULP exponent of a natural number as an `f32` value. -/
def ulpExp (x : Nat) : Nat := ulpExpAux 64 x

/-- The IEEE-754 binary32 value of a natural number: `x as f32` in Rust.
Naturals below `2^24` are exact; above, `x` is rounded to the nearest
multiple of its unit in the last place, ties to the even multiple. -/
def roundF32 (x : Nat) : Nat :=
  let k := ulpExp x
  if k = 0 then x
  else
    let ulp := 2 ^ k
    let q := x / ulp
    let r := x % ulp
    if 2 * r < ulp then q * ulp
    else if ulp < 2 * r then (q + 1) * ulp
    else if q % 2 = 0 then q * ulp else (q + 1) * ulp

/-- `f(nodes)` from `src/utils.rs`: number of tolerable failures,
`((nodes - 1) as f32 / 2.0).ceil() as usize`; `Err(())` (here `none`) for
clusters below 3 nodes.  The cast of `nodes - 1` to `f32` rounds
(`roundF32`); the division by `2.0`, the `.ceil()` and the cast back to
`usize` are then exact, and on naturals `ceil(v / 2) = (v + 1) / 2`. -/
def f (nodes : Nat) : Option Nat :=
  if nodes < 3 then none else some ((roundF32 (nodes - 1) + 1) / 2)

/-- `fast_quorum(nodes)` from `src/utils.rs`:
`((3 * f + 1) as f32 / 2.0 + 1.0).floor() as usize`.  The conversion of
`3 * f + 1` to `f32` and the float addition of `1.0` are modelled as
exact: for `3 * f + 1 < 2^24` the conversion is exact and the only
rounding (the tie in `+ 1.0` at `f32` value `2^24 - 1`) does not change
the subsequent `floor`, so this definition coincides with the code on
that whole range — which covers every theorem below that unfolds it. -/
def fastQuorum (nodes : Nat) : Option Nat :=
  (f nodes).map (fun fv => (3 * fv + 1) / 2 + 1)

/-- `slow_quorum(nodes)` from `src/utils.rs` (the normal quorum): `f + 1`. -/
def slowQuorum (nodes : Nat) : Option Nat :=
  (f nodes).map (fun fv => fv + 1)

/-! ### The quorum engine: `find_quorum` from `src/utils.rs`

The vote tally `BTreeMap<&View, BTreeMap<&MSG, BTreeSet<&ID>>>` is modelled
as an association list keyed by `View` (only ever accessed through `get`,
so its order is irrelevant) whose values are association lists sorted by
message, with sorted duplicate-free node lists as the `BTreeSet`s. -/

/-- A message-keyed tally for one view: `BTreeMap<&MSG, BTreeSet<&ID>>`. -/
abbrev Inner := List (Nat × List Nat)

/-- `BTreeSet::insert`: insert into a sorted duplicate-free list. -/
def insSet (x : Nat) : List Nat → List Nat
  | [] => [x]
  | y :: ys =>
    if x < y then x :: y :: ys
    else if x = y then y :: ys
    else y :: insSet x ys

/-- `entry(message).or_insert(BTreeSet::new())`: make sure the message key
exists (with an empty voter set if new), keeping keys sorted. -/
def ensureMsg (m : Nat) : Inner → Inner
  | [] => [(m, [])]
  | (k, ns) :: rest =>
    if m < k then (m, []) :: (k, ns) :: rest
    else if m = k then (k, ns) :: rest
    else (k, ns) :: ensureMsg m rest

/-- `message_entry.insert(node)`: add a node to the voter set of a message. -/
def addNode (m n : Nat) : Inner → Inner
  | [] => []
  | (k, ns) :: rest =>
    if m = k then (k, insSet n ns) :: rest
    else (k, ns) :: addNode m n rest

/-- `votes.get(view)` on the outer map. -/
def lookupView : List (View × Inner) → View → Option Inner
  | [], _ => none
  | (k, i) :: rest, v => if k = v then some i else lookupView rest v

/-- `votes.entry(view).or_insert(BTreeMap::new())` on the outer map. -/
def ensureView (v : View) : List (View × Inner) → List (View × Inner)
  | [] => [(v, [])]
  | (k, i) :: rest =>
    if k = v then (k, i) :: rest else (k, i) :: ensureView v rest

/-- Apply an update to the inner map stored at a view key. -/
def updateView (v : View) (g : Inner → Inner) :
    List (View × Inner) → List (View × Inner)
  | [] => []
  | (k, i) :: rest =>
    if k = v then (k, g i) :: rest else (k, i) :: updateView v g rest

/-- The mutable state of the tally loop in `find_quorum`:
`votes`, `highest_view` and `all_nodes`. -/
structure TallyState where
  votes : List (View × Inner)
  highestView : Option View
  allNodes : List Nat
deriving DecidableEq

/-- The `highest_view` update inside the tally loop: replace the running
highest view only when the incoming view's number is strictly greater
(`highest_view.is_none() || item.view.view > highest_view.unwrap().view`). -/
def bumpHighest (hv : Option View) (v : View) : Option View :=
  match hv with
  | none => some v
  | some h => if h.view < v.view then some v else some h

/-- One iteration of the tally loop of `find_quorum` (`src/utils.rs`
lines 107-119): create the view entry, update the running highest view
(strictly greater view numbers only), create the message entry, and count
the node's vote unless the node already voted and this vote is not in the
running highest view. -/
def tallyStep (s : TallyState) (q : Vote) : TallyState :=
  let votes1 := ensureView q.view s.votes
  let hv1 : Option View := bumpHighest s.highestView q.view
  let votes2 := updateView q.view (ensureMsg q.message) votes1
  if q.node ∉ s.allNodes ∨ hv1 = some q.view then
    { votes := updateView q.view (addNode q.message q.node) votes2
      highestView := hv1
      allNodes := insSet q.node s.allNodes }
  else
    { votes := votes2, highestView := hv1, allNodes := s.allNodes }

/-- The whole tally loop of `find_quorum`. -/
def tally (l : List Vote) : TallyState :=
  l.foldl tallyStep ⟨[], none, []⟩

/-- `enum QuorumType` from `src/utils.rs`. -/
inductive QuorumType
  | fastQuorum
  | normalQuorum
deriving DecidableEq

/-- `struct Quorum` from `src/utils.rs`. -/
structure Quorum where
  count : Nat
  message : Nat
  nodesWith : List Nat
  nodesWithout : List Nat
  view : View
  quorumType : QuorumType
deriving DecidableEq

/-- Result of `find_quorum`: `Ok(Quorum)`, `Err(None)`,
`Err(Some(NoQuorum { view, votes }))`, or a panic (the `unwrap` on the
quorum-size functions when the highest view has fewer than 3 members). -/
inductive FindQuorumResult
  | ok (q : Quorum)
  | errNone
  | errNoQuorum (view : View) (votes : Inner)
  | panicked
deriving DecidableEq

/-- `iter().max_by(|a, b| a.1.len().cmp(&b.1.len()))` over the sorted
message tally: Rust's `max_by` returns the last maximal element, so a later
entry replaces the accumulator when its voter count is at least as large. -/
def maxByLast (inner : Inner) : Option (Nat × List Nat) :=
  inner.foldl
    (fun acc p =>
      match acc with
      | none => some p
      | some q => if q.2.length ≤ p.2.length then some p else some q)
    none

/-- The decision phase of `find_quorum` (`src/utils.rs` lines 120-184),
expressed over exactly the data the source reads: the highest view, the
tally restricted to the highest view (`votes.get(highest_view)`), and
`all_nodes`. -/
def decidePhase (hv? : Option View) (inner? : Option Inner)
    (allNodes : List Nat) : FindQuorumResult :=
  match hv? with
  | none => .errNone
  | some hv =>
    match inner? with
    | none => .errNone
    | some inner =>
      match maxByLast inner with
      | none => .errNone
      | some top =>
        let many := inner.filter (fun p => top.2.length ≤ p.2.length)
        if 1 < many.length then .errNoQuorum hv many
        else
          let opposing :=
            (hv.members.foldl (fun acc x => insSet x acc) allNodes).filter
              (fun x => x ∉ top.2)
          match fastQuorum hv.members.length with
          | none => .panicked
          | some fq =>
            if fq ≤ top.2.length then
              .ok ⟨top.2.length, top.1, top.2, opposing, hv, .fastQuorum⟩
            else
              match slowQuorum hv.members.length with
              | none => .panicked
              | some sq =>
                if sq ≤ top.2.length then
                  .ok ⟨top.2.length, top.1, top.2, opposing, hv, .normalQuorum⟩
                else .errNoQuorum hv inner

/-- `find_quorum` from `src/utils.rs`: tally the votes, then decide. -/
def findQuorum (l : List Vote) : FindQuorumResult :=
  let s := tally l
  decidePhase s.highestView (s.highestView.bind (lookupView s.votes)) s.allNodes

/-- `BTreeMap::get` on a message-keyed tally (observer used by the
correctness lemmas). -/
def lookupMsg : Inner → Nat → Option (List Nat)
  | [], _ => none
  | (k, ns) :: rest, m => if k = m then some ns else lookupMsg rest m

/-- The `BTreeMap` representation invariant of a message tally: keys are
strictly ascending. -/
def InnerSorted (i : Inner) : Prop :=
  i.Pairwise (fun a b => a.1 < b.1)

/-- Whether a `find_quorum` result is an `Err` value (as opposed to `Ok` or
a panic). -/
def FindQuorumResult.isErr : FindQuorumResult → Bool
  | .errNone => true
  | .errNoQuorum _ _ => true
  | _ => false

/-! ### The client: `invoke_inconsistent` and `invoke_consistent`
from `src/client/mod.rs`

The network is an oracle: the response list a broadcast would produce is
passed in as a parameter (`none` entries are transport errors, which the
client filters out).  Every observable interaction (storage read, sequence
counter consumption, each kind of broadcast, a decide-function call) is
recorded in an event trace so that ordering and absence of interactions can
be stated. -/

/-- Observable client interactions, in program order. -/
inductive ClientEvent
  | storageViewRead
  | seqConsumed
  | proposeInconsistentBroadcast (dests : List Nat) (message : Nat)
  | proposeConsistentBroadcast (dests : List Nat) (message : Nat)
  | asyncFinalizeInconsistent (dests : List Nat) (message : Nat)
  | asyncFinalizeConsistent (dests : List Nat) (message : Nat)
  | syncFinalizeConsistent (dests : List Nat) (message : Nat)
  | decideCalled (choices : List Nat)
deriving DecidableEq

/-- A client call result: `Ok`, one of the `&'static str` errors, or a
propagated panic. -/
inductive ClientResult (α : Type)
  | ok (a : α)
  | err (msg : String)
  | panicked
deriving DecidableEq

/-- Outcome of an `invoke_inconsistent` call: result plus event trace. -/
structure InconsistentOutcome where
  result : ClientResult Nat
  events : List ClientEvent
deriving DecidableEq

/-- Outcome of an `invoke_consistent` call: result plus event trace. -/
structure ConsistentOutcome where
  result : ClientResult Unit
  events : List ClientEvent
deriving DecidableEq

/-- Turn the successful responses of a broadcast into quorum votes, as in
`responses.iter().map(|(node_id, (msg, view))| QuorumVote { .. })` after
filtering out errors. -/
def votesOfResponses (responses : List (Nat × Option (Nat × View))) :
    List Vote :=
  (responses.filterMap (fun p => p.2.map (fun mv => (p.1, mv)))).map
    (fun p => ⟨p.1, p.2.1, p.2.2⟩)

/-- `invoke_inconsistent` from `src/client/mod.rs` (lines 71-106).
`latestView` is the client's cached `latest_view`; `responses` is the
network oracle for the one `propose_inconsistent` broadcast.  The cluster
size is checked on the cached view before the sequence counter is touched;
on a quorum the finalize is broadcast asynchronously; any `find_quorum`
error is mapped to the `"Quorum not found"` error with no retry. -/
def invokeInconsistent (latestView : View) (message : Nat)
    (responses : List (Nat × Option (Nat × View))) : InconsistentOutcome :=
  if latestView.members.length < 3 then
    ⟨.err "Cluster size is too small", []⟩
  else
    let evs := [ClientEvent.seqConsumed,
      ClientEvent.proposeInconsistentBroadcast latestView.members message]
    match findQuorum (votesOfResponses responses) with
    | .ok q =>
        ⟨.ok q.message,
          evs ++ [ClientEvent.asyncFinalizeInconsistent q.view.members q.message]⟩
    | .panicked => ⟨.panicked, evs⟩
    | _ => ⟨.err "Quorum not found", evs⟩

/-- `invoke_consistent` from `src/client/mod.rs` (lines 112-185).
`storageView` is what `storage.recover_current_view()` returns (read first,
before the cluster-size check); `decideFunction` is the caller-supplied
decide function; `proposeResponses` and `syncFinalizeResponses` are the
network oracles for the propose broadcast and the synchronous finalize
broadcast.  On a fast quorum the finalize is asynchronous; on a normal
quorum the quorum's own message is finalized synchronously and a further
quorum of acknowledgements is required.  The decide function is never
invoked (the source carries a TODO noting this). -/
def invokeConsistent (storageView : View) (message : Nat)
    (decideFunction : List Nat → Nat)
    (proposeResponses syncFinalizeResponses : List (Nat × Option (Nat × View))) :
    ConsistentOutcome :=
  let evs0 := [ClientEvent.storageViewRead]
  if storageView.members.length < 3 then
    ⟨.err "Cluster size is too small", evs0⟩
  else
    let evs := evs0 ++ [ClientEvent.seqConsumed,
      ClientEvent.proposeConsistentBroadcast storageView.members message]
    match findQuorum (votesOfResponses proposeResponses) with
    | .ok q =>
        match q.quorumType with
        | .fastQuorum =>
            ⟨.ok (),
              evs ++ [ClientEvent.asyncFinalizeConsistent q.view.members q.message]⟩
        | .normalQuorum =>
            let evs2 :=
              evs ++ [ClientEvent.syncFinalizeConsistent q.view.members q.message]
            match findQuorum (votesOfResponses syncFinalizeResponses) with
            | .ok _ => ⟨.ok (), evs2⟩
            | .panicked => ⟨.panicked, evs2⟩
            | _ =>
                ⟨.err "Unable to get enough confirm messages for consistent finalize",
                  evs2⟩
    | .panicked => ⟨.panicked, evs⟩
    | _ => ⟨.err "Quorum not found", evs⟩

/-! ### The record store: `src/io/test_utils/mock_record_store.rs`

`MockRecordStore` keeps a `BTreeMap<RecordKey, RecordValue>`; it is
modelled as an association list with `BTreeMap::insert` semantics
(replace the value of an existing key, append otherwise).  The assertions
in the store and in `FakeIRStorage` are modelled as a `panicked` outcome. -/

/-- Tentative/finalized tag, `enum State`. -/
inductive RecState
  | tentative
  | finalized
deriving DecidableEq

/-- Consistent/inconsistent tag, `enum OperationType`. -/
inductive OperationType
  | consistent
  | inconsistent
deriving DecidableEq

/-- `struct RecordKey`: client, sequence and the view the record was made
under. -/
structure RecordKey where
  client : Nat
  sequence : Nat
  view : View
deriving DecidableEq

/-- `struct RecordValue`. -/
structure RecordValue where
  state : RecState
  operationType : OperationType
  operation : Nat
deriving DecidableEq

/-- The record store contents. -/
abbrev RecordStore := List (RecordKey × RecordValue)

/-- A computation that may hit a Rust panic (`assert!`, `panic!()` calls or
an uncovered match arm). -/
inductive PanicOr (α : Type)
  | ok (a : α)
  | panicked
deriving DecidableEq

/-- `enum IROperation` from `src/server/mod.rs`. -/
inductive IROperation
  | inconsistentPropose (client sequence message : Nat)
  | inconsistentFinalize (client sequence message : Nat)
  | consistentPropose (client sequence message : Nat)
  | consistentFinalize (client sequence message : Nat)
deriving DecidableEq

/-- `IROperation::client`. -/
def IROperation.client : IROperation → Nat
  | .inconsistentPropose c _ _ => c
  | .inconsistentFinalize c _ _ => c
  | .consistentPropose c _ _ => c
  | .consistentFinalize c _ _ => c

/-- `IROperation::sequence`. -/
def IROperation.sequence : IROperation → Nat
  | .inconsistentPropose _ s _ => s
  | .inconsistentFinalize _ s _ => s
  | .consistentPropose _ s _ => s
  | .consistentFinalize _ s _ => s

/-- `IROperation::message`. -/
def IROperation.message : IROperation → Nat
  | .inconsistentPropose _ _ m => m
  | .inconsistentFinalize _ _ m => m
  | .consistentPropose _ _ m => m
  | .consistentFinalize _ _ m => m

/-- `struct FullState` from `mock_record_store.rs`: what `find_entry`
returns per record. -/
structure FullState where
  irOperation : IROperation
  view : View
deriving DecidableEq

/-- Reassemble a stored record into an `IROperation`, as the `map` closure
inside `find_entry` does. -/
def entryToOperation (k : RecordKey) (v : RecordValue) : IROperation :=
  match v.operationType, v.state with
  | .consistent, .tentative => .consistentPropose k.client k.sequence v.operation
  | .consistent, .finalized => .consistentFinalize k.client k.sequence v.operation
  | .inconsistent, .tentative => .inconsistentPropose k.client k.sequence v.operation
  | .inconsistent, .finalized => .inconsistentFinalize k.client k.sequence v.operation

/-- `BTreeMap::insert`: replace the value of an existing key (returning the
previous value) or append a new binding. -/
def storeInsert (k : RecordKey) (v : RecordValue) :
    RecordStore → RecordStore × Option RecordValue
  | [] => ([(k, v)], none)
  | (k', v') :: rest =>
    if k' = k then ((k', v) :: rest, some v')
    else
      let r := storeInsert k v rest
      ((k', v') :: r.1, r.2)

/-- `find_entry` from `mock_record_store.rs` (lines 50-96): collect every
record matching the client and sequence (ignoring the view in the key),
assert there is at most one, and return it. -/
def findEntry (store : RecordStore) (client operation : Nat) :
    PanicOr (Option FullState) :=
  let found := store.filterMap (fun p =>
    if p.1.client = client ∧ p.1.sequence = operation then
      some ⟨entryToOperation p.1 p.2, p.1.view⟩
    else none)
  if found.length ≤ 1 then .ok found.head? else .panicked

/-- `propose_tentative_inconsistent` from `mock_record_store.rs`. -/
def proposeTentativeInconsistent (store : RecordStore)
    (client sequence : Nat) (view : View) (operation : Nat) : RecordStore :=
  (storeInsert ⟨client, sequence, view⟩
    ⟨.tentative, .inconsistent, operation⟩ store).1

/-- `promote_finalized_inconsistent` from `mock_record_store.rs`. -/
def promoteFinalizedInconsistent (store : RecordStore)
    (client sequence : Nat) (view : View) (message : Nat) : RecordStore :=
  (storeInsert ⟨client, sequence, view⟩
    ⟨.finalized, .inconsistent, message⟩ store).1

/-- `propose_tentative_consistent` from `mock_record_store.rs`. -/
def proposeTentativeConsistent (store : RecordStore)
    (client sequence : Nat) (view : View) (operation : Nat) : RecordStore :=
  (storeInsert ⟨client, sequence, view⟩
    ⟨.tentative, .consistent, operation⟩ store).1

/-- `promote_finalized_consistent_returning_previous_evaluation` from
`mock_record_store.rs` (lines 164-187): insert a finalized consistent
record at the key `(client, sequence, view)` and return the message of the
binding that was replaced, if that exact key was present. -/
def promoteFinalizedConsistentReturningPreviousEvaluation
    (store : RecordStore) (client sequence : Nat) (view : View)
    (operation : Nat) : Option Nat × RecordStore :=
  let r := storeInsert ⟨client, sequence, view⟩
    ⟨.finalized, .consistent, operation⟩ store
  (r.2.map (fun s => s.operation), r.1)

/-! ### `FakeIRStorage` operations from `src/io/test_utils/fake_storage.rs`

The executor (`computer_lol`) is abstracted as the message-transforming
functions it contributes. -/

/-- `record_tentative_inconsistent_and_evaluate` (lines 38-73): look up the
slot; if a record exists, assert its view and message match and (under
`debug_assertions`, the configuration all tests run in) panic unless it is
an `InconsistentPropose`; then write a tentative inconsistent record and
return the executor evaluation. -/
def recordTentativeInconsistentAndEvaluate (store : RecordStore)
    (client operation : Nat) (view : View) (message : Nat)
    (evaluateFn : Nat → Nat) : PanicOr (RecordStore × Nat) :=
  match findEntry store client operation with
  | .panicked => .panicked
  | .ok existing =>
    let check : PanicOr Unit :=
      match existing with
      | none => .ok ()
      | some state =>
        if state.view = view then
          if state.irOperation.message = message then
            match state.irOperation with
            | .inconsistentPropose _ _ _ => .ok ()
            | _ => .panicked
          else .panicked
        else .panicked
    match check with
    | .panicked => .panicked
    | .ok _ =>
      .ok (proposeTentativeInconsistent store client operation view message,
        evaluateFn message)

/-- `record_tentative_and_exec_consistent` (lines 110-139): look up the
slot; if a record exists, assert its view matches and panic unless it is a
`ConsistentFinalize`; execute, then write a tentative consistent record. -/
def recordTentativeAndExecConsistent (store : RecordStore)
    (client sequence : Nat) (view : View) (operation : Nat)
    (execFn : Nat → Nat) : PanicOr (RecordStore × Nat) :=
  match findEntry store client sequence with
  | .panicked => .panicked
  | .ok existing =>
    let check : PanicOr Unit :=
      match existing with
      | none => .ok ()
      | some state =>
        if state.view = view then
          match state.irOperation with
          | .consistentFinalize _ _ _ => .ok ()
          | _ => .panicked
        else .panicked
    match check with
    | .panicked => .panicked
    | .ok _ =>
      .ok (proposeTentativeConsistent store client sequence view operation,
        execFn operation)

/-- `add_peer_view_change_operation` (lines 176-265) restricted to one peer
shadow record store (the `(view, node)` entry of `received_record_logs`).
Note the `ConsistentFinalize` arm: the source comment says "Consistent
finalize is always recorded" but the arm calls
`propose_tentative_consistent`, storing the operation as tentative.  The
source match on `(operation, found)` is non-exhaustive (a propose meeting a
stored record of a different kind); those cases are modelled as a panic. -/
def addPeerViewChangeOperation (recordStore : RecordStore) (view : View)
    (operation : IROperation) : PanicOr RecordStore :=
  match findEntry recordStore operation.client operation.sequence with
  | .panicked => .panicked
  | .ok found =>
    match operation, found with
    | .inconsistentFinalize c s m, _ =>
        .ok (promoteFinalizedInconsistent recordStore c s view m)
    | .inconsistentPropose c s m, none =>
        .ok (proposeTentativeInconsistent recordStore c s view m)
    | .inconsistentPropose _ _ _, some ⟨.inconsistentPropose _ _ _, _⟩ =>
        .ok recordStore
    | .consistentFinalize c s m, _ =>
        .ok (proposeTentativeConsistent recordStore c s view m)
    | .consistentPropose c s m, none =>
        .ok (proposeTentativeConsistent recordStore c s view m)
    | .consistentPropose _ _ _, some ⟨.consistentPropose _ _ _, _⟩ =>
        .ok recordStore
    | _, _ => .panicked

/-! ### Replica message handlers from `src/server/mod.rs`

Each handler snapshots the view and threads the record store explicitly. -/

/-- `enum IRServerError` plus the panic outcome of the handler asserts. -/
inductive ServerOutcome
  | ok (message : Nat) (view : View) (store : RecordStore)
  | errRecovering (view : View)
  | panicked
deriving DecidableEq

/-- `propose_inconsistent` (lines 85-114): `assert_eq!(view.state, Normal)`
— a panic, not an error — then record tentative and evaluate. -/
def proposeInconsistentServer (view : View) (store : RecordStore)
    (client operationSequence messageIn : Nat) (evaluateFn : Nat → Nat) :
    ServerOutcome :=
  if view.state = ViewState.normal then
    match recordTentativeInconsistentAndEvaluate store client
        operationSequence view messageIn evaluateFn with
    | .ok r => .ok r.2 view r.1
    | .panicked => .panicked
  else .panicked

/-- `propose_consistent` (lines 149-175): a `Recovery` view produces
`Err(Recovering(view))` before any storage access; any other state
(including `ViewChanging`) records tentative and executes. -/
def proposeConsistentServer (view : View) (store : RecordStore)
    (client operationSequence messageIn : Nat) (execFn : Nat → Nat) :
    ServerOutcome :=
  if view.state = ViewState.recovery then .errRecovering view
  else
    match recordTentativeAndExecConsistent store client operationSequence
        view messageIn execFn with
    | .ok r => .ok r.2 view r.1
    | .panicked => .panicked

/-- A unanimous three-vote bag in a 3-member view (concrete witness data). -/
def witnessVotes : List Vote :=
  [⟨1, 10, ⟨1, [1, 2, 3], .normal⟩⟩, ⟨2, 10, ⟨1, [1, 2, 3], .normal⟩⟩,
   ⟨3, 10, ⟨1, [1, 2, 3], .normal⟩⟩]

/-- The quorum `find_quorum` returns on `witnessVotes`. -/
def witnessQuorum : Quorum :=
  ⟨3, 10, [1, 2, 3], [], ⟨1, [1, 2, 3], .normal⟩, .fastQuorum⟩

/-- Two votes in distinct views with distinct view numbers
(concrete witness data). -/
def witnessVotesA : List Vote :=
  [⟨1, 5, ⟨1, [1, 2, 3], .normal⟩⟩, ⟨2, 5, ⟨2, [1, 2, 3], .normal⟩⟩]

/-- `witnessVotesA` in the opposite order. -/
def witnessVotesB : List Vote :=
  [⟨2, 5, ⟨2, [1, 2, 3], .normal⟩⟩, ⟨1, 5, ⟨1, [1, 2, 3], .normal⟩⟩]

/-- Characterization of the tally entry at a fixed view `vmax` after
processing the votes `p`: if present, its message buckets are canonically
sorted and hold exactly the voters of `vmax`-votes in `p`. -/
def BucketChar (vmax : View) (p : List Vote) (s : TallyState) : Prop :=
  (lookupView s.votes vmax = none → ∀ x ∈ p, x.view ≠ vmax) ∧
  (∀ inner, lookupView s.votes vmax = some inner →
    InnerSorted inner ∧
    (∀ m, lookupMsg inner m = none → ∀ x ∈ p, ¬(x.view = vmax ∧ x.message = m)) ∧
    (∀ m ns, lookupMsg inner m = some ns →
      ns.Pairwise (· < ·) ∧
      (∃ x, x ∈ p ∧ x.view = vmax ∧ x.message = m) ∧
      (∀ n, n ∈ ns ↔ (⟨n, m, vmax⟩ : Vote) ∈ p)))

/-- The invariant carried through the tally fold: the running highest view
is a view of the processed prefix, and the tally entry at `vmax` is
canonical. -/
def TallyInv (vmax : View) (p : List Vote) (s : TallyState) : Prop :=
  (∀ h, s.highestView = some h → h ∈ p.map Vote.view) ∧ BucketChar vmax p s

/-! ## Supporting lemmas

Canonical-representation lemmas for the sorted-list models of `BTreeSet`
and `BTreeMap`, and invariants of the `find_quorum` tally fold. -/

theorem roundF32_eq_of_lt (x : Nat) (h : x < 2 ^ 24) : roundF32 x = x := by
  have h16 : x < 16777216 := by
    have hval : (2 : Nat) ^ 24 = 16777216 := by norm_num
    omega
  have h0 : ulpExp x = 0 := by
    show ulpExpAux 64 x = 0
    rw [show (64 : Nat) = 63 + 1 from rfl]
    simp [ulpExpAux, h16]
  simp [roundF32, h0]

theorem mem_insSet (x a : Nat) (l : List Nat) :
    a ∈ insSet x l ↔ a = x ∨ a ∈ l := by
  induction l with
  | nil => simp [insSet]
  | cons y ys ih =>
    simp only [insSet]
    split
    · simp [List.mem_cons]
    · split
      · next h1 h2 =>
          subst h2
          simp only [List.mem_cons]
          tauto
      · simp only [List.mem_cons, ih]
        tauto

theorem sorted_insSet (x : Nat) (l : List Nat) (h : l.Pairwise (· < ·)) :
    (insSet x l).Pairwise (· < ·) := by
  induction l with
  | nil => simp [insSet]
  | cons y ys ih =>
    rcases List.pairwise_cons.mp h with ⟨hy, hys⟩
    by_cases h1 : x < y
    · simp only [insSet, if_pos h1]
      refine List.pairwise_cons.mpr ⟨?_, h⟩
      intro b hb
      rcases List.mem_cons.mp hb with rfl | hb
      · exact h1
      · exact lt_trans h1 (hy b hb)
    · by_cases h2 : x = y
      · subst h2
        simp only [insSet, if_neg h1, if_pos rfl]
        exact h
      · simp only [insSet, if_neg h1, if_neg h2]
        refine List.pairwise_cons.mpr ⟨?_, ih hys⟩
        intro b hb
        rcases (mem_insSet x b ys).mp hb with rfl | hb
        · omega
        · exact hy b hb

theorem sorted_eq_of_mem_iff :
    ∀ (l₁ l₂ : List Nat), l₁.Pairwise (· < ·) → l₂.Pairwise (· < ·) →
      (∀ a, a ∈ l₁ ↔ a ∈ l₂) → l₁ = l₂ := by
  intro l₁
  induction l₁ with
  | nil =>
    intro l₂ _ _ hmem
    cases l₂ with
    | nil => rfl
    | cons b t₂ => exact absurd ((hmem b).mpr (List.mem_cons_self b t₂)) (by simp)
  | cons a t₁ ih =>
    intro l₂ h₁ h₂ hmem
    cases l₂ with
    | nil => exact absurd ((hmem a).mp (List.mem_cons_self a t₁)) (by simp)
    | cons b t₂ =>
      rcases List.pairwise_cons.mp h₁ with ⟨ha, ht₁⟩
      rcases List.pairwise_cons.mp h₂ with ⟨hb, ht₂⟩
      have hab : a = b := by
        have h₃ := (hmem a).mp (List.mem_cons_self a t₁)
        have h₄ := (hmem b).mpr (List.mem_cons_self b t₂)
        rcases List.mem_cons.mp h₃ with h₃ | h₃
        · exact h₃
        · rcases List.mem_cons.mp h₄ with h₄ | h₄
          · exact h₄.symm
          · have := hb a h₃
            have := ha b h₄
            omega
      subst hab
      have htails : ∀ c, c ∈ t₁ ↔ c ∈ t₂ := by
        intro c
        constructor
        · intro hc
          have hlt := ha c hc
          rcases List.mem_cons.mp ((hmem c).mp (List.mem_cons.mpr (Or.inr hc))) with
            rfl | h
          · omega
          · exact h
        · intro hc
          have hlt := hb c hc
          rcases List.mem_cons.mp ((hmem c).mpr (List.mem_cons.mpr (Or.inr hc))) with
            rfl | h
          · omega
          · exact h
      rw [ih t₂ ht₁ ht₂ htails]

theorem lookupMsg_none_of_forall_lt (i : Inner) (m : Nat)
    (h : ∀ p ∈ i, m < p.1) : lookupMsg i m = none := by
  induction i with
  | nil => rfl
  | cons p t ih =>
    have hm : p.1 ≠ m := by
      have := h p (List.mem_cons_self p t)
      omega
    simp only [lookupMsg, if_neg hm]
    exact ih (fun b hb => h b (List.mem_cons.mpr (Or.inr hb)))

theorem mem_ensureMsg_key (m : Nat) (i : Inner) :
    ∀ b ∈ ensureMsg m i, b.1 = m ∨ b ∈ i := by
  induction i with
  | nil =>
    intro b hb
    simp only [ensureMsg, List.mem_singleton] at hb
    subst hb
    exact Or.inl rfl
  | cons p t ih =>
    intro b hb
    simp only [ensureMsg] at hb
    split at hb
    · rcases List.mem_cons.mp hb with rfl | hb
      · exact Or.inl rfl
      · exact Or.inr hb
    · split at hb
      · exact Or.inr hb
      · rcases List.mem_cons.mp hb with rfl | hb
        · exact Or.inr (List.mem_cons_self _ _)
        · rcases ih b hb with h | h
          · exact Or.inl h
          · exact Or.inr (List.mem_cons.mpr (Or.inr h))

theorem innerSorted_ensureMsg (m : Nat) (i : Inner) (hs : InnerSorted i) :
    InnerSorted (ensureMsg m i) := by
  induction i with
  | nil => simp [ensureMsg, InnerSorted]
  | cons p t ih =>
    rcases List.pairwise_cons.mp hs with ⟨hp, ht⟩
    simp only [ensureMsg]
    split
    · next h1 =>
        refine List.pairwise_cons.mpr ⟨?_, hs⟩
        intro b hb
        rcases List.mem_cons.mp hb with rfl | hb
        · exact h1
        · exact lt_trans h1 (hp b hb)
    · split
      · exact hs
      · next h1 h2 =>
          refine List.pairwise_cons.mpr ⟨?_, ih ht⟩
          intro b hb
          rcases mem_ensureMsg_key m t b hb with h | h
          · omega
          · exact hp b h

theorem keys_addNode (m n : Nat) (i : Inner) :
    (addNode m n i).map Prod.fst = i.map Prod.fst := by
  induction i with
  | nil => rfl
  | cons p t ih =>
    simp only [addNode]
    split
    · rfl
    · simp [ih]

theorem innerSorted_addNode (m n : Nat) (i : Inner) (hs : InnerSorted i) :
    InnerSorted (addNode m n i) := by
  have h1 : InnerSorted i ↔ (i.map Prod.fst).Pairwise (· < ·) := by
    simp [InnerSorted, List.pairwise_map]
  have h2 : InnerSorted (addNode m n i) ↔
      ((addNode m n i).map Prod.fst).Pairwise (· < ·) := by
    simp [InnerSorted, List.pairwise_map]
  rw [h2, keys_addNode]
  exact h1.mp hs

theorem lookupMsg_ensureMsg_self (m : Nat) (i : Inner) (hs : InnerSorted i) :
    lookupMsg (ensureMsg m i) m = some ((lookupMsg i m).getD []) := by
  induction i with
  | nil => simp [ensureMsg, lookupMsg]
  | cons p t ih =>
    rcases List.pairwise_cons.mp hs with ⟨hp, ht⟩
    simp only [ensureMsg]
    split
    · next h1 =>
        have hm : p.1 ≠ m := by omega
        have htail : lookupMsg t m = none :=
          lookupMsg_none_of_forall_lt t m (fun b hb => lt_trans h1 (hp b hb))
        simp [lookupMsg, hm, htail]
    · split
      · next h1 h2 =>
          subst h2
          simp [lookupMsg]
      · next h1 h2 =>
          have hm : p.1 ≠ m := fun h => h2 h.symm
          simp only [lookupMsg, if_neg hm]
          exact ih ht

theorem lookupMsg_ensureMsg_ne (m k : Nat) (i : Inner) (hk : k ≠ m) :
    lookupMsg (ensureMsg m i) k = lookupMsg i k := by
  have hmk : m ≠ k := fun h => hk h.symm
  induction i with
  | nil => simp [ensureMsg, lookupMsg, hmk]
  | cons p t ih =>
    simp only [ensureMsg]
    split
    · simp only [lookupMsg, if_neg hmk]
    · split
      · rfl
      · simp only [lookupMsg]
        split
        · rfl
        · exact ih

theorem lookupMsg_addNode_self (m n : Nat) (i : Inner) :
    lookupMsg (addNode m n i) m = (lookupMsg i m).map (insSet n) := by
  induction i with
  | nil => rfl
  | cons p t ih =>
    simp only [addNode]
    split
    · next h1 => simp [lookupMsg, h1]
    · next h1 =>
        simp only [lookupMsg, if_neg (fun h : p.1 = m => h1 h.symm)]
        exact ih

theorem lookupMsg_addNode_ne (m n k : Nat) (i : Inner) (hk : k ≠ m) :
    lookupMsg (addNode m n i) k = lookupMsg i k := by
  induction i with
  | nil => rfl
  | cons p t ih =>
    simp only [addNode]
    split
    · next h1 =>
        have hpk : p.1 ≠ k := by rw [← h1]; exact fun h => hk h.symm
        simp only [lookupMsg, if_neg hpk]
    · simp only [lookupMsg]
      split
      · rfl
      · exact ih

theorem inner_eq_of_lookup_eq :
    ∀ (i₁ i₂ : Inner), InnerSorted i₁ → InnerSorted i₂ →
      (∀ m, lookupMsg i₁ m = lookupMsg i₂ m) → i₁ = i₂ := by
  intro i₁
  induction i₁ with
  | nil =>
    intro i₂ _ _ hl
    cases i₂ with
    | nil => rfl
    | cons p t =>
      have := hl p.1
      simp [lookupMsg] at this
  | cons p₁ t₁ ih =>
    intro i₂ h₁ h₂ hl
    cases i₂ with
    | nil =>
      have := hl p₁.1
      simp [lookupMsg] at this
    | cons p₂ t₂ =>
      rcases List.pairwise_cons.mp h₁ with ⟨hp₁, ht₁⟩
      rcases List.pairwise_cons.mp h₂ with ⟨hp₂, ht₂⟩
      have hkeys : p₁.1 = p₂.1 := by
        rcases Nat.lt_trichotomy p₁.1 p₂.1 with h | h | h
        · exfalso
          have hr : lookupMsg (p₂ :: t₂) p₁.1 = none := by
            have hne : p₂.1 ≠ p₁.1 := by omega
            simp only [lookupMsg, if_neg hne]
            exact lookupMsg_none_of_forall_lt t₂ p₁.1
              (fun b hb => lt_trans h (hp₂ b hb))
          have hlft := hl p₁.1
          rw [hr] at hlft
          simp [lookupMsg] at hlft
        · exact h
        · exfalso
          have hr : lookupMsg (p₁ :: t₁) p₂.1 = none := by
            have hne : p₁.1 ≠ p₂.1 := by omega
            simp only [lookupMsg, if_neg hne]
            exact lookupMsg_none_of_forall_lt t₁ p₂.1
              (fun b hb => lt_trans h (hp₁ b hb))
          have hlft := hl p₂.1
          rw [hr] at hlft
          simp [lookupMsg] at hlft
      have hvals : p₁.2 = p₂.2 := by
        have := hl p₁.1
        simp only [lookupMsg, if_pos rfl] at this
        rw [if_pos hkeys.symm] at this
        exact Option.some.inj this
      have htails : ∀ m, lookupMsg t₁ m = lookupMsg t₂ m := by
        intro m
        by_cases hm : m = p₁.1
        · rw [lookupMsg_none_of_forall_lt t₁ m
              (fun b hb => by have := hp₁ b hb; omega),
            lookupMsg_none_of_forall_lt t₂ m
              (fun b hb => by have := hp₂ b hb; omega)]
        · have hthis := hl m
          have hne₁ : p₁.1 ≠ m := fun h => hm h.symm
          have hne₂ : p₂.1 ≠ m := by omega
          simp only [lookupMsg, if_neg hne₁, if_neg hne₂] at hthis
          exact hthis
      have hp : p₁ = p₂ := Prod.ext hkeys hvals
      rw [hp, ih t₂ ht₁ ht₂ htails]

theorem lookupView_ensureView (v u : View) (votes : List (View × Inner)) :
    lookupView (ensureView v votes) u =
      if u = v then some ((lookupView votes v).getD []) else lookupView votes u := by
  induction votes with
  | nil =>
    by_cases h : u = v
    · subst h
      simp [ensureView, lookupView]
    · simp [ensureView, lookupView, h, Ne.symm h]
  | cons p t ih =>
    simp only [ensureView]
    split
    · next hk =>
        subst hk
        by_cases h : u = p.1
        · subst h
          simp [lookupView]
        · simp [lookupView, h, Ne.symm h]
    · next hk =>
        simp only [lookupView]
        by_cases hpu : p.1 = u
        · subst hpu
          simp [lookupView, hk]
        · simp only [if_neg hpu]
          rw [ih]
          by_cases huv : u = v
          · subst huv
            simp [lookupView, hpu]
          · simp [huv]

theorem lookupView_updateView (v u : View) (g : Inner → Inner)
    (votes : List (View × Inner)) :
    lookupView (updateView v g votes) u =
      if u = v then (lookupView votes v).map g else lookupView votes u := by
  induction votes with
  | nil =>
    by_cases h : u = v <;> simp [updateView, lookupView, h]
  | cons p t ih =>
    simp only [updateView]
    split
    · next hk =>
        subst hk
        by_cases h : u = p.1
        · subst h
          simp [lookupView]
        · simp [lookupView, h, Ne.symm h]
    · next hk =>
        simp only [lookupView]
        by_cases hpu : p.1 = u
        · subst hpu
          simp [hk]
        · simp only [if_neg hpu]
          rw [ih]
          by_cases huv : u = v
          · subst huv
            simp [lookupView, hpu]
          · simp [huv]

theorem tallyStep_highestView (s : TallyState) (q : Vote) :
    (tallyStep s q).highestView = bumpHighest s.highestView q.view := by
  simp only [tallyStep]
  split <;> rfl

theorem tallyStep_allNodes_mem (s : TallyState) (q : Vote) (a : Nat) :
    a ∈ (tallyStep s q).allNodes ↔ a = q.node ∨ a ∈ s.allNodes := by
  simp only [tallyStep]
  split
  · exact mem_insSet q.node a s.allNodes
  · next h =>
      push_neg at h
      have hq : q.node ∈ s.allNodes := h.1
      constructor
      · exact Or.inr
      · intro hc
        rcases hc with rfl | hc
        · exact hq
        · exact hc

theorem tallyStep_allNodes_sorted (s : TallyState) (q : Vote)
    (h : s.allNodes.Pairwise (· < ·)) :
    (tallyStep s q).allNodes.Pairwise (· < ·) := by
  simp only [tallyStep]
  split
  · exact sorted_insSet q.node s.allNodes h
  · exact h

theorem tallyStep_votes_lookup_ne (s : TallyState) (q : Vote) (w : View)
    (hw : w ≠ q.view) :
    lookupView (tallyStep s q).votes w = lookupView s.votes w := by
  simp only [tallyStep]
  split
  · simp only [lookupView_updateView, if_neg hw, lookupView_ensureView]
  · simp only [lookupView_updateView, if_neg hw, lookupView_ensureView, if_neg hw]

theorem tallyStep_votes_lookup_self (s : TallyState) (q : Vote)
    (hc : q.node ∉ s.allNodes ∨ bumpHighest s.highestView q.view = some q.view) :
    lookupView (tallyStep s q).votes q.view =
      some (addNode q.message q.node
        (ensureMsg q.message ((lookupView s.votes q.view).getD []))) := by
  simp only [tallyStep, if_pos hc]
  simp [lookupView_updateView, lookupView_ensureView]

theorem bumpHighest_ne_none (hv : Option View) (v : View) :
    bumpHighest hv v ≠ none := by
  cases hv with
  | none => simp [bumpHighest]
  | some h =>
    simp only [bumpHighest]
    split <;> simp

theorem allNodes_foldl (l : List Vote) (s : TallyState)
    (hs : s.allNodes.Pairwise (· < ·)) :
    (l.foldl tallyStep s).allNodes.Pairwise (· < ·) ∧
    ∀ a, a ∈ (l.foldl tallyStep s).allNodes ↔
      a ∈ l.map Vote.node ∨ a ∈ s.allNodes := by
  induction l generalizing s with
  | nil => simpa using hs
  | cons q t ih =>
    simp only [List.foldl_cons]
    rcases ih (tallyStep s q) (tallyStep_allNodes_sorted s q hs) with ⟨h1, h2⟩
    refine ⟨h1, ?_⟩
    intro a
    rw [h2 a, tallyStep_allNodes_mem]
    simp only [List.map_cons, List.mem_cons]
    tauto

theorem highestView_foldl (l : List Vote) (s : TallyState) :
    ((l.foldl tallyStep s).highestView = none → l = [] ∧ s.highestView = none) ∧
    (∀ h, (l.foldl tallyStep s).highestView = some h →
      (h ∈ l.map Vote.view ∨ s.highestView = some h) ∧
      (∀ u ∈ l.map Vote.view, u.view ≤ h.view) ∧
      (∀ h₀, s.highestView = some h₀ → h₀.view ≤ h.view)) := by
  induction l generalizing s with
  | nil =>
    simp only [List.foldl_nil]
    refine ⟨fun h => ⟨by trivial, h⟩, fun h hh => ⟨Or.inr hh, by simp, ?_⟩⟩
    intro h₀ hh₀
    rw [hh] at hh₀
    cases hh₀
    exact Nat.le_refl _
  | cons q t ih =>
    simp only [List.foldl_cons]
    rcases ih (tallyStep s q) with ⟨ihn, ihs⟩
    constructor
    · intro hnone
      rcases ihn hnone with ⟨_, hsq⟩
      rw [tallyStep_highestView] at hsq
      exact absurd hsq (bumpHighest_ne_none _ _)
    · intro h hh
      rcases ihs h hh with ⟨hmem, hdom, hinit⟩
      have hstep : (tallyStep s q).highestView = bumpHighest s.highestView q.view :=
        tallyStep_highestView s q
      cases hsv : s.highestView with
      | none =>
        have hbump : (tallyStep s q).highestView = some q.view := by
          rw [hstep, hsv]; rfl
        have hqh : q.view.view ≤ h.view := hinit q.view hbump
        refine ⟨?_, ?_, ?_⟩
        · rcases hmem with hm | hm
          · exact Or.inl (by simp [List.mem_cons, hm])
          · rw [hbump] at hm
            cases hm
            exact Or.inl (by simp)
        · intro u hu
          rcases List.mem_cons.mp hu with rfl | hu
          · exact hqh
          · exact hdom u hu
        · intro h₀ hh₀
          simp at hh₀
      | some h₀ =>
        by_cases hlt : h₀.view < q.view.view
        · have hbump : (tallyStep s q).highestView = some q.view := by
            rw [hstep, hsv]
            simp [bumpHighest, hlt]
          have hqh : q.view.view ≤ h.view := hinit q.view hbump
          refine ⟨?_, ?_, ?_⟩
          · rcases hmem with hm | hm
            · exact Or.inl (by simp [List.mem_cons, hm])
            · rw [hbump] at hm
              cases hm
              exact Or.inl (by simp)
          · intro u hu
            rcases List.mem_cons.mp hu with rfl | hu
            · exact hqh
            · exact hdom u hu
          · intro h₁ hh₁
            cases hh₁
            omega
        · have hbump : (tallyStep s q).highestView = some h₀ := by
            rw [hstep, hsv]
            simp [bumpHighest, hlt]
          have hqh : h₀.view ≤ h.view := hinit h₀ hbump
          refine ⟨?_, ?_, ?_⟩
          · rcases hmem with hm | hm
            · exact Or.inl (by simp [List.mem_cons, hm])
            · refine Or.inr ?_
              rw [hbump] at hm
              exact hm
          · intro u hu
            rcases List.mem_cons.mp hu with rfl | hu
            · omega
            · exact hdom u hu
          · intro h₁ hh₁
            cases hh₁
            exact hqh

theorem bucketChar_step (L : List Vote) (vmax : View)
    (hinj : ∀ u v : View, u ∈ L.map Vote.view → v ∈ L.map Vote.view →
      u.view = v.view → u = v)
    (hdom : ∀ u ∈ L.map Vote.view, u.view ≤ vmax.view)
    (p : List Vote) (q : Vote) (s : TallyState)
    (hsubP : ∀ x ∈ p, x ∈ L) (hq : q ∈ L)
    (hhv : ∀ h, s.highestView = some h → h ∈ p.map Vote.view)
    (hbc : BucketChar vmax p s) :
    BucketChar vmax (p ++ [q]) (tallyStep s q) := by
  rcases hbc with ⟨hnone, hsome⟩
  by_cases hqv : q.view = vmax
  · -- the vote is in the maximal view: it is always counted
    have hc : q.node ∉ s.allNodes ∨ bumpHighest s.highestView q.view = some q.view := by
      refine Or.inr ?_
      cases hsv : s.highestView with
      | none => rfl
      | some h₀ =>
        have hh₀L : h₀ ∈ L.map Vote.view := by
          rcases List.mem_map.mp (hhv h₀ hsv) with ⟨x, hx, hxv⟩
          exact List.mem_map.mpr ⟨x, hsubP x hx, hxv⟩
        have hqL : q.view ∈ L.map Vote.view := List.mem_map.mpr ⟨q, hq, rfl⟩
        have hle : h₀.view ≤ vmax.view := hdom h₀ hh₀L
        by_cases hlt : h₀.view < q.view.view
        · simp [bumpHighest, hlt]
        · have heq : h₀.view = q.view.view := by
            have hvv : q.view.view = vmax.view := by rw [hqv]
            omega
          have hhq := hinj h₀ q.view hh₀L hqL heq
          simp [bumpHighest, hlt, hhq]
    have hlk := tallyStep_votes_lookup_self s q hc
    rw [hqv] at hlk
    constructor
    · intro hn
      rw [hlk] at hn
      exact absurd hn (by simp)
    · intro inner hin
      rw [hlk] at hin
      injection hin with hinner
      subst hinner
      cases hbase : lookupView s.votes vmax with
      | none =>
        have hpn := hnone hbase
        simp only [Option.getD_none]
        have hA : addNode q.message q.node (ensureMsg q.message []) =
            [(q.message, [q.node])] := by
          simp [addNode, ensureMsg, insSet]
        rw [hA]
        refine ⟨by simp [InnerSorted], ?_, ?_⟩
        · intro m hm x hx
          have hmne : q.message ≠ m := by
            by_contra hme
            rw [← hme] at hm
            simp [lookupMsg] at hm
          rcases List.mem_append.mp hx with hx | hx
          · intro ⟨hxv, _⟩
            exact hpn x hx hxv
          · rw [List.mem_singleton] at hx
            subst hx
            intro ⟨_, hxm⟩
            exact hmne hxm
        · intro m ns hns
          simp only [lookupMsg] at hns
          by_cases hme : q.message = m
          · rw [if_pos hme] at hns
            injection hns with hns
            subst hns
            refine ⟨by simp, ⟨q, by simp, hqv, hme⟩, ?_⟩
            intro n
            simp only [List.mem_singleton, List.mem_append]
            constructor
            · intro hn
              subst hn
              refine Or.inr ?_
              rw [← hme, ← hqv]
            · intro hn
              rcases hn with hn | hn
              · exact absurd rfl (hpn _ hn)
              · have := congrArg Vote.node hn
                simpa using this
          · rw [if_neg hme] at hns
            cases hns
      | some inner₀ =>
        rcases hsome inner₀ hbase with ⟨hs1, hs2, hs3⟩
        simp only [Option.getD_some]
        refine ⟨innerSorted_addNode _ _ _ (innerSorted_ensureMsg _ _ hs1), ?_, ?_⟩
        · intro m hm x hx
          have hmne : q.message ≠ m := by
            by_contra hme
            rw [← hme, lookupMsg_addNode_self,
              lookupMsg_ensureMsg_self _ _ hs1] at hm
            simp at hm
          rw [lookupMsg_addNode_ne _ _ _ _ (fun hh => hmne hh.symm),
            lookupMsg_ensureMsg_ne _ _ _ (fun hh => hmne hh.symm)] at hm
          rcases List.mem_append.mp hx with hx | hx
          · exact hs2 m hm x hx
          · rw [List.mem_singleton] at hx
            subst hx
            intro ⟨_, hxm⟩
            exact hmne hxm
        · intro m ns hns
          by_cases hme : q.message = m
          · subst hme
            rw [lookupMsg_addNode_self, lookupMsg_ensureMsg_self _ _ hs1] at hns
            simp only [Option.map_some'] at hns
            injection hns with hns
            cases hbm : lookupMsg inner₀ q.message with
            | none =>
              rw [hbm] at hns
              simp only [Option.getD_none] at hns
              subst hns
              refine ⟨by simp [insSet], ⟨q, by simp, hqv, rfl⟩, ?_⟩
              intro n
              rw [mem_insSet]
              simp only [List.mem_append, List.mem_singleton, List.not_mem_nil,
                or_false]
              constructor
              · intro hn
                subst hn
                refine Or.inr ?_
                rw [← hqv]
              · intro hn
                rcases hn with hn | hn
                · exact absurd ⟨rfl, rfl⟩ (hs2 _ hbm _ hn)
                · have := congrArg Vote.node hn
                  simpa using this
            | some ns₀ =>
              rw [hbm] at hns
              simp only [Option.getD_some] at hns
              subst hns
              rcases hs3 _ ns₀ hbm with ⟨hos, ⟨x, hx, hxv, hxm⟩, hmm⟩
              refine ⟨sorted_insSet _ _ hos,
                ⟨x, List.mem_append.mpr (Or.inl hx), hxv, hxm⟩, ?_⟩
              intro n
              rw [mem_insSet, hmm n]
              simp only [List.mem_append, List.mem_singleton]
              constructor
              · intro hn
                rcases hn with hn | hn
                · subst hn
                  refine Or.inr ?_
                  rw [← hqv]
                · exact Or.inl hn
              · intro hn
                rcases hn with hn | hn
                · exact Or.inr hn
                · refine Or.inl ?_
                  have := congrArg Vote.node hn
                  simpa using this
          · rw [lookupMsg_addNode_ne _ _ _ _ (fun hh => hme hh.symm),
              lookupMsg_ensureMsg_ne _ _ _ (fun hh => hme hh.symm)] at hns
            rcases hs3 m ns hns with ⟨hos, ⟨x, hx, hxv, hxm⟩, hmm⟩
            refine ⟨hos, ⟨x, List.mem_append.mpr (Or.inl hx), hxv, hxm⟩, ?_⟩
            intro n
            rw [hmm n]
            simp only [List.mem_append, List.mem_singleton]
            constructor
            · exact fun hn => Or.inl hn
            · intro hn
              rcases hn with hn | hn
              · exact hn
              · exfalso
                apply hme
                have := congrArg Vote.message hn
                simpa using this.symm
  · -- the vote is in another view: the entry at vmax is untouched
    have hlk : lookupView (tallyStep s q).votes vmax = lookupView s.votes vmax :=
      tallyStep_votes_lookup_ne s q vmax (fun hh => hqv hh.symm)
    constructor
    · intro hn x hx
      rw [hlk] at hn
      rcases List.mem_append.mp hx with hx | hx
      · exact hnone hn x hx
      · rw [List.mem_singleton] at hx
        subst hx
        exact hqv
    · intro inner hin
      rw [hlk] at hin
      rcases hsome inner hin with ⟨hs1, hs2, hs3⟩
      refine ⟨hs1, ?_, ?_⟩
      · intro m hm x hx
        rcases List.mem_append.mp hx with hx | hx
        · exact hs2 m hm x hx
        · rw [List.mem_singleton] at hx
          subst hx
          intro ⟨hxv, _⟩
          exact hqv hxv
      · intro m ns hns
        rcases hs3 m ns hns with ⟨hos, ⟨x, hx, hxv, hxm⟩, hmem⟩
        refine ⟨hos, ⟨x, List.mem_append.mpr (Or.inl hx), hxv, hxm⟩, ?_⟩
        intro n
        rw [hmem n, List.mem_append, List.mem_singleton]
        constructor
        · exact fun hh => Or.inl hh
        · intro hh
          rcases hh with hh | hh
          · exact hh
          · exfalso
            apply hqv
            exact (congrArg Vote.view hh).symm

theorem tallyInv_step (L : List Vote) (vmax : View)
    (hinj : ∀ u v : View, u ∈ L.map Vote.view → v ∈ L.map Vote.view →
      u.view = v.view → u = v)
    (hdom : ∀ u ∈ L.map Vote.view, u.view ≤ vmax.view)
    (p : List Vote) (q : Vote) (s : TallyState)
    (hsubP : ∀ x ∈ p, x ∈ L) (hq : q ∈ L)
    (hinv : TallyInv vmax p s) : TallyInv vmax (p ++ [q]) (tallyStep s q) := by
  rcases hinv with ⟨hhv, hbc⟩
  refine ⟨?_, bucketChar_step L vmax hinj hdom p q s hsubP hq hhv hbc⟩
  intro h hh
  rw [tallyStep_highestView] at hh
  cases hsv : s.highestView with
  | none =>
    rw [hsv] at hh
    simp only [bumpHighest] at hh
    injection hh with hh
    subst hh
    simp
  | some h₀ =>
    rw [hsv] at hh
    simp only [bumpHighest] at hh
    split at hh
    · injection hh with hh
      subst hh
      simp
    · injection hh with hh
      subst hh
      simp only [List.map_append, List.mem_append]
      exact Or.inl (hhv h₀ hsv)

theorem tallyInv_foldl (L : List Vote) (vmax : View)
    (hinj : ∀ u v : View, u ∈ L.map Vote.view → v ∈ L.map Vote.view →
      u.view = v.view → u = v)
    (hdom : ∀ u ∈ L.map Vote.view, u.view ≤ vmax.view) :
    ∀ (l p : List Vote) (s : TallyState), (∀ x ∈ p, x ∈ L) → (∀ x ∈ l, x ∈ L) →
      TallyInv vmax p s → TallyInv vmax (p ++ l) (l.foldl tallyStep s) := by
  intro l
  induction l with
  | nil =>
    intro p s _ _ hinv
    simpa using hinv
  | cons q t ih =>
    intro p s hp hl hinv
    simp only [List.foldl_cons]
    have hq : q ∈ L := hl q (List.mem_cons_self q t)
    have h1 := tallyInv_step L vmax hinj hdom p q s hp hq hinv
    have h2 := ih (p ++ [q]) (tallyStep s q)
      (by
        intro x hx
        rcases List.mem_append.mp hx with hx | hx
        · exact hp x hx
        · rw [List.mem_singleton] at hx
          subst hx
          exact hq)
      (fun x hx => hl x (List.mem_cons.mpr (Or.inr hx))) h1
    have heq : (p ++ [q]) ++ t = p ++ q :: t := by simp
    rw [heq] at h2
    exact h2

theorem tallyInv_tally (L : List Vote) (vmax : View)
    (hinj : ∀ u v : View, u ∈ L.map Vote.view → v ∈ L.map Vote.view →
      u.view = v.view → u = v)
    (hdom : ∀ u ∈ L.map Vote.view, u.view ≤ vmax.view) :
    TallyInv vmax L (tally L) := by
  have hbase : TallyInv vmax [] ⟨[], none, []⟩ := by
    refine ⟨?_, ?_, ?_⟩
    · intro h hh
      simp at hh
    · intro _ x hx
      simp at hx
    · intro inner hin
      simp [lookupView] at hin
  have hres := tallyInv_foldl L vmax hinj hdom L [] ⟨[], none, []⟩
    (by simp) (fun x hx => hx) hbase
  simpa [tally] using hres

theorem findQuorum_of_perm_of_injective_views (l₁ l₂ : List Vote)
    (hperm : l₁.Perm l₂)
    (hinj : ∀ u v : View, u ∈ l₁.map Vote.view → v ∈ l₁.map Vote.view →
      u.view = v.view → u = v) :
    findQuorum l₁ = findQuorum l₂ := by
  by_cases hnil : l₁ = []
  · subst hnil
    rw [hperm.symm.eq_nil]
  · have hviews_iff : ∀ u : View, u ∈ l₁.map Vote.view ↔ u ∈ l₂.map Vote.view :=
      fun u => (hperm.map Vote.view).mem_iff
    have hnodes_iff : ∀ a : Nat, a ∈ l₁.map Vote.node ↔ a ∈ l₂.map Vote.node :=
      fun a => (hperm.map Vote.node).mem_iff
    have hmem_iff : ∀ x : Vote, x ∈ l₁ ↔ x ∈ l₂ := fun x => hperm.mem_iff
    rcases highestView_foldl l₁ ⟨[], none, []⟩ with ⟨hn₁, hs₁⟩
    rcases highestView_foldl l₂ ⟨[], none, []⟩ with ⟨hn₂, hs₂⟩
    cases hhv₁ : (tally l₁).highestView with
    | none => exact absurd (hn₁ hhv₁).1 hnil
    | some h₁ =>
      cases hhv₂ : (tally l₂).highestView with
      | none =>
        exfalso
        apply hnil
        have h2nil := (hn₂ hhv₂).1
        rw [h2nil] at hperm
        exact hperm.eq_nil
      | some h₂ =>
        rcases hs₁ h₁ hhv₁ with ⟨hm₁, hd₁, _⟩
        rcases hs₂ h₂ hhv₂ with ⟨hm₂, hd₂, _⟩
        have hm₁' : h₁ ∈ l₁.map Vote.view := by
          rcases hm₁ with h | h
          · exact h
          · simp at h
        have hm₂' : h₂ ∈ l₂.map Vote.view := by
          rcases hm₂ with h | h
          · exact h
          · simp at h
        have h₂in1 : h₂ ∈ l₁.map Vote.view := (hviews_iff h₂).mpr hm₂'
        have heqnum : h₁.view = h₂.view := by
          have hle₁ : h₁.view ≤ h₂.view := hd₂ h₁ ((hviews_iff h₁).mp hm₁')
          have hle₂ : h₂.view ≤ h₁.view := hd₁ h₂ h₂in1
          omega
        have hEq : h₁ = h₂ := hinj h₁ h₂ hm₁' h₂in1 heqnum
        subst hEq
        have hinj₂ : ∀ u v : View, u ∈ l₂.map Vote.view → v ∈ l₂.map Vote.view →
            u.view = v.view → u = v :=
          fun u v hu hv =>
            hinj u v ((hviews_iff u).mpr hu) ((hviews_iff v).mpr hv)
        have hdom₂ : ∀ u ∈ l₂.map Vote.view, u.view ≤ h₁.view := hd₂
        rcases tallyInv_tally l₁ h₁ hinj hd₁ with ⟨_, hbc₁n, hbc₁s⟩
        rcases tallyInv_tally l₂ h₁ hinj₂ hdom₂ with ⟨_, hbc₂n, hbc₂s⟩
        rcases allNodes_foldl l₁ ⟨[], none, []⟩ (by simp) with ⟨hA₁s, hA₁m⟩
        rcases allNodes_foldl l₂ ⟨[], none, []⟩ (by simp) with ⟨hA₂s, hA₂m⟩
        have hAN : (tally l₁).allNodes = (tally l₂).allNodes := by
          apply sorted_eq_of_mem_iff _ _ hA₁s hA₂s
          intro a
          rw [hA₁m a, hA₂m a]
          simp only [List.not_mem_nil, or_false]
          exact hnodes_iff a
        have hBK : lookupView (tally l₁).votes h₁ = lookupView (tally l₂).votes h₁ := by
          cases hb₁ : lookupView (tally l₁).votes h₁ with
          | none =>
            cases hb₂ : lookupView (tally l₂).votes h₁ with
            | none => rfl
            | some i₂ =>
              exfalso
              rcases List.mem_map.mp hm₁' with ⟨x, hx, hxv⟩
              exact hbc₁n hb₁ x hx hxv
          | some i₁ =>
            cases hb₂ : lookupView (tally l₂).votes h₁ with
            | none =>
              exfalso
              rcases List.mem_map.mp hm₂' with ⟨x, hx, hxv⟩
              exact hbc₂n hb₂ x hx hxv
            | some i₂ =>
              rcases hbc₁s i₁ hb₁ with ⟨hso₁, hln₁, hls₁⟩
              rcases hbc₂s i₂ hb₂ with ⟨hso₂, hln₂, hls₂⟩
              congr 1
              apply inner_eq_of_lookup_eq i₁ i₂ hso₁ hso₂
              intro m
              cases hc₁ : lookupMsg i₁ m with
              | none =>
                cases hc₂ : lookupMsg i₂ m with
                | none => rfl
                | some ns₂ =>
                  exfalso
                  rcases hls₂ m ns₂ hc₂ with ⟨_, ⟨x, hx, hxv, hxm⟩, _⟩
                  exact hln₁ m hc₁ x ((hmem_iff x).mpr hx) ⟨hxv, hxm⟩
              | some ns₁ =>
                cases hc₂ : lookupMsg i₂ m with
                | none =>
                  exfalso
                  rcases hls₁ m ns₁ hc₁ with ⟨_, ⟨x, hx, hxv, hxm⟩, _⟩
                  exact hln₂ m hc₂ x ((hmem_iff x).mp hx) ⟨hxv, hxm⟩
                | some ns₂ =>
                  congr 1
                  rcases hls₁ m ns₁ hc₁ with ⟨hsr₁, _, hmi₁⟩
                  rcases hls₂ m ns₂ hc₂ with ⟨hsr₂, _, hmi₂⟩
                  apply sorted_eq_of_mem_iff _ _ hsr₁ hsr₂
                  intro n
                  rw [hmi₁ n, hmi₂ n]
                  exact hmem_iff _
        simp only [findQuorum]
        rw [hhv₁, hhv₂, hAN]
        simp only [Option.some_bind]
        rw [hBK]

theorem decidePhase_ok_inversion (hv? : Option View) (inner? : Option Inner)
    (allNodes : List Nat) (q : Quorum)
    (h : decidePhase hv? inner? allNodes = .ok q) :
    ∃ hv, hv? = some hv ∧ q.view = hv ∧
      q.count = q.nodesWith.length ∧
      (∃ sq, slowQuorum hv.members.length = some sq ∧ sq ≤ q.count) ∧
      (∃ fq, fastQuorum hv.members.length = some fq ∧
        (q.quorumType = QuorumType.fastQuorum ↔ fq ≤ q.count)) := by
  cases hv? with
  | none => simp [decidePhase] at h
  | some hv =>
    refine ⟨hv, rfl, ?_⟩
    cases inner? with
    | none => simp [decidePhase] at h
    | some inner =>
      simp only [decidePhase] at h
      cases hmx : maxByLast inner with
      | none => rw [hmx] at h; simp at h
      | some top =>
        rw [hmx] at h
        simp only at h
        split at h
        · simp at h
        · cases hf : f hv.members.length with
          | none =>
            simp only [fastQuorum, hf, Option.map_none'] at h
            simp at h
          | some fv =>
            simp only [fastQuorum, slowQuorum, hf, Option.map_some'] at h
            split at h
            · next hcond =>
                injection h with h
                subst h
                refine ⟨rfl, rfl, ⟨fv + 1, by simp [slowQuorum, hf], by
                  simp only
                  omega⟩, ⟨(3 * fv + 1) / 2 + 1, by simp [fastQuorum, hf], ?_⟩⟩
                simp only [true_iff]
                exact hcond
            · next hcond =>
                split at h
                · next hcond2 =>
                    injection h with h
                    subst h
                    refine ⟨rfl, rfl,
                      ⟨fv + 1, by simp [slowQuorum, hf], hcond2⟩,
                      ⟨(3 * fv + 1) / 2 + 1, by simp [fastQuorum, hf], ?_⟩⟩
                    constructor
                    · intro hqt
                      cases hqt
                    · intro hle
                      exact absurd hle hcond
                · simp at h

/-! ## The claims -/

/-- C1: the spec claims that on a Normal (not Fast) quorum,
`invoke_consistent` calls the supplied decide function on the unique
highest-view messages and finalizes the decided message.  The code instead
synchronously finalizes the quorum's own message and never invokes the
decide function (its own TODO comment flags this as incorrect): with a
3-member view and propose responses splitting 2-1 between messages 5 and 6,
the outcome is the same for every decide function, the trace holds no
decide call, and the synchronous finalize carries the quorum message 5.
The further quorum of finalize acknowledgements is required, as claimed. -/
theorem invokeConsistent_normal_quorum_finalizes_without_decide
    (decideFunction : List Nat → Nat) :
    invokeConsistent ⟨0, [1, 2, 3], .normal⟩ 7 decideFunction
        [(1, some (5, ⟨0, [1, 2, 3], .normal⟩)),
         (2, some (5, ⟨0, [1, 2, 3], .normal⟩)),
         (3, some (6, ⟨0, [1, 2, 3], .normal⟩))]
        [(1, some (5, ⟨0, [1, 2, 3], .normal⟩)),
         (2, some (5, ⟨0, [1, 2, 3], .normal⟩))] =
      ⟨.ok (), [.storageViewRead, .seqConsumed,
                .proposeConsistentBroadcast [1, 2, 3] 7,
                .syncFinalizeConsistent [1, 2, 3] 5]⟩ := rfl

/-- C1 witness: the theorem instantiated at a decide function that would
have chosen message 6. -/
theorem invokeConsistent_normal_quorum_finalizes_without_decide_witness :
    invokeConsistent ⟨0, [1, 2, 3], .normal⟩ 7 (fun _ => 6)
        [(1, some (5, ⟨0, [1, 2, 3], .normal⟩)),
         (2, some (5, ⟨0, [1, 2, 3], .normal⟩)),
         (3, some (6, ⟨0, [1, 2, 3], .normal⟩))]
        [(1, some (5, ⟨0, [1, 2, 3], .normal⟩)),
         (2, some (5, ⟨0, [1, 2, 3], .normal⟩))] =
      ⟨.ok (), [.storageViewRead, .seqConsumed,
                .proposeConsistentBroadcast [1, 2, 3] 7,
                .syncFinalizeConsistent [1, 2, 3] 5]⟩ :=
  invokeConsistent_normal_quorum_finalizes_without_decide (fun _ => 6)

/-- C2 counterexample: with cached view number 0 and a NoQuorum outcome
carrying the strictly higher view number 1, `invoke_inconsistent` does not
adopt the view, clear probes, or retry: it performs exactly one propose
broadcast and returns the quorum-not-found error. -/
theorem invokeInconsistent_higher_view_no_retry_cex :
    invokeInconsistent ⟨0, [1, 2, 3], .normal⟩ 5
        [(1, some (5, ⟨1, [1, 2, 3], .normal⟩))] =
      ⟨.err "Quorum not found",
       [.seqConsumed, .proposeInconsistentBroadcast [1, 2, 3] 5]⟩ ∧
    findQuorum (votesOfResponses [(1, some (5, ⟨1, [1, 2, 3], .normal⟩))]) =
      .errNoQuorum ⟨1, [1, 2, 3], .normal⟩ [(5, [1])] := ⟨rfl, rfl⟩

/-- C2 (amended): whenever `find_quorum` yields an `Err` (NoQuorum) value —
whatever view it carries — `invoke_inconsistent` returns the
`"Quorum not found"` error after exactly one propose broadcast, with no view
adoption and no retry; retries are delegated to the network layer
(`MAX_ATTEMPTS = 0`). -/
theorem invokeInconsistent_noquorum_single_broadcast (latestView : View)
    (message : Nat) (responses : List (Nat × Option (Nat × View)))
    (hsize : ¬ latestView.members.length < 3)
    (herr : (findQuorum (votesOfResponses responses)).isErr = true) :
    invokeInconsistent latestView message responses =
      ⟨.err "Quorum not found",
       [.seqConsumed, .proposeInconsistentBroadcast latestView.members message]⟩ := by
  unfold invokeInconsistent
  rw [if_neg hsize]
  cases h : findQuorum (votesOfResponses responses) with
  | ok q => rw [h] at herr; exact absurd herr (by simp [FindQuorumResult.isErr])
  | panicked => rw [h] at herr; exact absurd herr (by simp [FindQuorumResult.isErr])
  | errNone => rfl
  | errNoQuorum v t => rfl

/-- C2 witness: the amended theorem at a concrete starved response set. -/
theorem invokeInconsistent_noquorum_single_broadcast_witness :
    invokeInconsistent ⟨0, [1, 2, 3], .normal⟩ 9
        [(1, some (9, ⟨2, [1, 2, 3], .normal⟩))] =
      ⟨.err "Quorum not found",
       [.seqConsumed, .proposeInconsistentBroadcast [1, 2, 3] 9]⟩ :=
  invokeInconsistent_noquorum_single_broadcast ⟨0, [1, 2, 3], .normal⟩ 9 _
    (by decide) (by decide)

/-- C3 counterexample: both claimed inequalities fail on the code.  At
`n = 3` the quorum sizes give `fast_quorum(3) = 3` and `f(3) = 1`, so
`fast_quorum(n) + f(n) ≤ n` fails (`4 > 3`).  And at `n = 33554439` the
`f32` cast inside `f` rounds `33554438` up to `33554440` (ties to even),
so `f = 16777220`, `normal_quorum = 16777221`, and
`normal_quorum(n) + f(n) = n + 2 > n + 1`. -/
theorem quorum_sizes_claimed_bounds_cex :
    (f 3 = some 1 ∧ fastQuorum 3 = some 3 ∧ ¬(3 + 1 ≤ 3)) ∧
    (roundF32 33554438 = 33554440 ∧ f 33554439 = some 16777220 ∧
      slowQuorum 33554439 = some 16777221 ∧
      ¬(16777221 + 16777220 ≤ 33554439 + 1)) := by decide

/-- C3 (amended): for `3 ≤ n ≤ 2^23` — a range on which every `f32` step
in the size functions is exact, so the modelled values are exactly the
code's — the quorum sizes satisfy `normal_quorum(n) + f(n) ≤ n + 1` and
`fast_quorum(n) ≤ n`.  Neither claimed bound holds universally: the
counterexample kills `fast_quorum(n) + f(n) ≤ n` already at `n = 3`, and
the `f32` rounding in `f` breaks even `normal_quorum(n) + f(n) ≤ n + 1`
at `n = 33554439`. -/
theorem quorum_sizes_bounds (n fv sv qv : Nat) (h3 : 3 ≤ n)
    (h23 : n ≤ 2 ^ 23)
    (hf : f n = some fv) (hs : slowQuorum n = some sv)
    (hq : fastQuorum n = some qv) :
    sv + fv ≤ n + 1 ∧ qv ≤ n := by
  have hn : ¬ n < 3 := by omega
  have hr : roundF32 (n - 1) = n - 1 := by
    refine roundF32_eq_of_lt _ ?_
    have hpow : (2 : Nat) ^ 23 < 2 ^ 24 := by norm_num
    omega
  simp only [f, slowQuorum, fastQuorum, if_neg hn, hr, Option.map_some',
    Option.some.injEq] at hf hs hq
  omega

/-- C3 witness: the amended bounds at `n = 3`. -/
theorem quorum_sizes_bounds_witness : 2 + 1 ≤ 3 + 1 ∧ 3 ≤ 3 :=
  quorum_sizes_bounds 3 1 2 3 (by decide) (by decide) (by decide) (by decide)
    (by decide)

/-- C4: the spec claims that `record_tentative_inconsistent` applied to a
slot already holding an `InconsistentFinalize` returns the finalized
message without downgrading.  The code instead panics (`"invalid type"`)
in the debug/test configuration — and its own TODO says the finalized
value should be returned: on a store holding
`InconsistentFinalize(msg 5)` at `(client 0, seq 0)`, replaying the
tentative write with the same view and message panics. -/
theorem record_tentative_inconsistent_on_finalized_panics :
    recordTentativeInconsistentAndEvaluate
        [(⟨0, 0, ⟨0, [1, 2, 3], .normal⟩⟩, ⟨.finalized, .inconsistent, 5⟩)]
        0 0 ⟨0, [1, 2, 3], .normal⟩ 5 id = .panicked := rfl

/-- C5: for every vote bag on which `find_quorum` returns `Ok(Quorum)`,
the quorum's view is a view occurring in the bag whose number dominates
every view number in the bag, the participant count equals `count` and is
at least the normal (slow) quorum of the view's member count, and the kind
is Fast exactly when the count reaches the fast quorum. -/
theorem findQuorum_ok_properties (l : List Vote) (q : Quorum)
    (h : findQuorum l = .ok q) :
    q.view ∈ l.map Vote.view ∧
    (∀ u ∈ l.map Vote.view, u.view ≤ q.view.view) ∧
    q.count = q.nodesWith.length ∧
    (∃ sq, slowQuorum q.view.members.length = some sq ∧ sq ≤ q.count) ∧
    (∃ fq, fastQuorum q.view.members.length = some fq ∧
      (q.quorumType = QuorumType.fastQuorum ↔ fq ≤ q.count)) := by
  rcases highestView_foldl l ⟨[], none, []⟩ with ⟨_, hs⟩
  simp only [findQuorum] at h
  rcases decidePhase_ok_inversion _ _ _ q h with
    ⟨hv, hhv, hqview, hcount, hslow, hfast⟩
  subst hqview
  rcases hs q.view hhv with ⟨hm, hd, _⟩
  have hm' : q.view ∈ l.map Vote.view := by
    rcases hm with hm | hm
    · exact hm
    · simp at hm
  exact ⟨hm', hd, hcount, hslow, hfast⟩

/-- C5 witness: the quorum properties at a concrete unanimous vote bag. -/
theorem findQuorum_ok_properties_witness :
    findQuorum witnessVotes = .ok witnessQuorum ∧
    (witnessQuorum.view ∈ witnessVotes.map Vote.view ∧
     (∀ u ∈ witnessVotes.map Vote.view, u.view ≤ witnessQuorum.view.view) ∧
     witnessQuorum.count = witnessQuorum.nodesWith.length ∧
     (∃ sq, slowQuorum witnessQuorum.view.members.length = some sq ∧
       sq ≤ witnessQuorum.count) ∧
     (∃ fq, fastQuorum witnessQuorum.view.members.length = some fq ∧
       (witnessQuorum.quorumType = QuorumType.fastQuorum ↔
         fq ≤ witnessQuorum.count))) :=
  ⟨by decide, findQuorum_ok_properties witnessVotes witnessQuorum (by decide)⟩

/-- C6: the spec claims a peer `ConsistentFinalize` shipped into the peer
shadow log stays finalized (finalized entries dominate proposes).  The
`ConsistentFinalize` arm of `add_peer_view_change_operation` instead calls
`propose_tentative_consistent` — contradicting its own comment "Consistent
finalize is always recorded" — so the shipped finalize is stored as a
tentative `ConsistentPropose`: on an empty shadow store, shipping
`ConsistentFinalize(client 0, seq 1, msg 9)` yields a `Tentative`
consistent record, and `find_entry` reads it back as `ConsistentPropose`. -/
theorem add_peer_consistent_finalize_downgraded_to_tentative :
    addPeerViewChangeOperation [] ⟨4, [1, 2, 3], .viewChanging⟩
        (.consistentFinalize 0 1 9) =
      .ok [(⟨0, 1, ⟨4, [1, 2, 3], .viewChanging⟩⟩,
            ⟨.tentative, .consistent, 9⟩)] ∧
    findEntry [(⟨0, 1, ⟨4, [1, 2, 3], .viewChanging⟩⟩,
        ⟨.tentative, .consistent, 9⟩)] 0 1 =
      .ok (some ⟨.consistentPropose 0 1 9, ⟨4, [1, 2, 3], .viewChanging⟩⟩) :=
  ⟨rfl, rfl⟩

/-- C7: the spec claims every handler returns a value or an error; the
repo's own test (`inconsistent_requests_rejected_if_not_normal`) expects
`Err(Recovering(view))` from `propose_inconsistent` on a recovering
replica.  The code instead `assert_eq!`s the view state and panics for any
non-`Normal` state.  `propose_consistent` does return
`Err(Recovering(view))` in `Recovery`, as claimed. -/
theorem propose_inconsistent_nonnormal_panics :
    proposeInconsistentServer ⟨1, [1, 2, 3], .recovery⟩ [] 0 1 5 id =
      .panicked ∧
    proposeInconsistentServer ⟨1, [1, 2, 3], .viewChanging⟩ [] 0 1 5 id =
      .panicked ∧
    proposeConsistentServer ⟨1, [1, 2, 3], .recovery⟩ [] 0 1 5 id =
      .errRecovering ⟨1, [1, 2, 3], .recovery⟩ := ⟨rfl, rfl, rfl⟩

/-- C8 counterexample: with a 2-member view, `invoke_consistent` returns
the cluster-too-small error only after reading the current view from
client storage (`recover_current_view`), so the error is not raised before
all I/O. -/
theorem invokeConsistent_storage_read_before_size_check_cex :
    invokeConsistent ⟨0, [1, 2], .normal⟩ 5 (fun _ => 0) [] [] =
      ⟨.err "Cluster size is too small", [.storageViewRead]⟩ := rfl

/-- C8 (amended): on a view with fewer than 3 members both invocations
return the cluster-too-small error before any network broadcast and
without consuming a sequence number; `invoke_inconsistent` performs no I/O
at all, while `invoke_consistent` first reads the current view from client
storage. -/
theorem cluster_too_small_no_broadcast_no_sequence
    (latestView storageView : View) (message message2 : Nat)
    (decideFunction : List Nat → Nat)
    (r1 r2 r3 : List (Nat × Option (Nat × View)))
    (h1 : latestView.members.length < 3)
    (h2 : storageView.members.length < 3) :
    invokeInconsistent latestView message r1 =
      ⟨.err "Cluster size is too small", []⟩ ∧
    invokeConsistent storageView message2 decideFunction r2 r3 =
      ⟨.err "Cluster size is too small", [.storageViewRead]⟩ := by
  constructor
  · unfold invokeInconsistent
    rw [if_pos h1]
  · unfold invokeConsistent
    rw [if_pos h2]

/-- C8 witness: the amended statement at 2- and 1-member views. -/
theorem cluster_too_small_no_broadcast_no_sequence_witness :
    invokeInconsistent ⟨0, [1, 2], .normal⟩ 4 [] =
      ⟨.err "Cluster size is too small", []⟩ ∧
    invokeConsistent ⟨0, [7], .normal⟩ 4 (fun _ => 0) [] [] =
      ⟨.err "Cluster size is too small", [.storageViewRead]⟩ :=
  cluster_too_small_no_broadcast_no_sequence ⟨0, [1, 2], .normal⟩
    ⟨0, [7], .normal⟩ 4 4 (fun _ => 0) [] [] [] (by decide) (by decide)

/-- C9 counterexample: two enumerations of the same two-vote multiset in
which two distinct `View` values share view number 1 produce different
`find_quorum` results (the NoQuorum carries whichever view was seen
first). -/
theorem findQuorum_order_sensitive_cex :
    ([⟨1, 5, ⟨1, [1, 2, 3], .normal⟩⟩,
      ⟨1, 5, ⟨1, [1, 2, 4], .normal⟩⟩] : List Vote).Perm
      [⟨1, 5, ⟨1, [1, 2, 4], .normal⟩⟩, ⟨1, 5, ⟨1, [1, 2, 3], .normal⟩⟩] ∧
    findQuorum [⟨1, 5, ⟨1, [1, 2, 3], .normal⟩⟩,
        ⟨1, 5, ⟨1, [1, 2, 4], .normal⟩⟩] ≠
      findQuorum [⟨1, 5, ⟨1, [1, 2, 4], .normal⟩⟩,
        ⟨1, 5, ⟨1, [1, 2, 3], .normal⟩⟩] :=
  ⟨List.Perm.swap _ _ _, by decide⟩

/-- C9 (amended): `find_quorum` is a function of the multiset of votes —
any two enumerations of the same vote bag produce exactly the same result,
including participant and non-participant sets — provided any two views
occurring in the bag with equal view numbers are equal (the counterexample
shows this proviso is necessary). -/
theorem findQuorum_of_perm_of_injective_views_claim (l₁ l₂ : List Vote)
    (hperm : l₁.Perm l₂)
    (hinj : ∀ u v : View, u ∈ l₁.map Vote.view → v ∈ l₁.map Vote.view →
      u.view = v.view → u = v) :
    findQuorum l₁ = findQuorum l₂ :=
  findQuorum_of_perm_of_injective_views l₁ l₂ hperm hinj

/-- C9 witness: the amended statement at a concrete two-vote bag with
distinct view numbers. -/
theorem findQuorum_of_perm_of_injective_views_claim_witness :
    findQuorum witnessVotesA = findQuorum witnessVotesB :=
  findQuorum_of_perm_of_injective_views_claim witnessVotesA witnessVotesB
    (List.Perm.swap _ _ _)
    (by
      intro u v hu hv huv
      simp [witnessVotesA] at hu hv
      rcases hu with rfl | rfl <;> rcases hv with rfl | rfl <;>
        first
          | rfl
          | exact absurd huv (by decide))

/-- C10: on a record store whose `(client, sequence)` slot holds a
`ConsistentPropose` recorded under view `v`,
`promote_finalized_consistent_returning_previous_evaluation` with view `v2`
returns the previously recorded message exactly when `v2 = v`; when the
views differ it returns `none`, the old tentative entry stays stored
alongside the new finalized one, and `find_entry` then trips its
at-most-one-entry assertion. -/
theorem promote_finalized_consistent_previous_iff_same_view
    (c s m m2 : Nat) (v v2 : View) :
    ((promoteFinalizedConsistentReturningPreviousEvaluation
        [(⟨c, s, v⟩, ⟨.tentative, .consistent, m⟩)] c s v2 m2).1 = some m ↔
      v2 = v) ∧
    (v2 ≠ v →
      (promoteFinalizedConsistentReturningPreviousEvaluation
        [(⟨c, s, v⟩, ⟨.tentative, .consistent, m⟩)] c s v2 m2).1 = none ∧
      findEntry (promoteFinalizedConsistentReturningPreviousEvaluation
        [(⟨c, s, v⟩, ⟨.tentative, .consistent, m⟩)] c s v2 m2).2 c s =
        .panicked) := by
  by_cases hv : v = v2
  · subst hv
    simp [promoteFinalizedConsistentReturningPreviousEvaluation, storeInsert]
  · have hk : (⟨c, s, v⟩ : RecordKey) ≠ ⟨c, s, v2⟩ := by
      intro h
      exact hv (congrArg RecordKey.view h)
    constructor
    · simp [promoteFinalizedConsistentReturningPreviousEvaluation, storeInsert,
        hk]
      intro h
      exact absurd h.symm hv
    · intro _
      constructor
      · simp [promoteFinalizedConsistentReturningPreviousEvaluation,
          storeInsert, hk]
      · simp [promoteFinalizedConsistentReturningPreviousEvaluation,
          storeInsert, hk, findEntry]

/-- C10 witness: the statement at concrete mismatching views. -/
theorem promote_finalized_consistent_previous_iff_same_view_witness :
    ((promoteFinalizedConsistentReturningPreviousEvaluation
        [(⟨0, 0, ⟨0, [], .normal⟩⟩, ⟨.tentative, .consistent, 3⟩)]
        0 0 ⟨1, [], .normal⟩ 4).1 = some 3 ↔
      (⟨1, [], .normal⟩ : View) = ⟨0, [], .normal⟩) ∧
    ((promoteFinalizedConsistentReturningPreviousEvaluation
        [(⟨0, 0, ⟨0, [], .normal⟩⟩, ⟨.tentative, .consistent, 3⟩)]
        0 0 ⟨1, [], .normal⟩ 4).1 = none ∧
      findEntry (promoteFinalizedConsistentReturningPreviousEvaluation
        [(⟨0, 0, ⟨0, [], .normal⟩⟩, ⟨.tentative, .consistent, 3⟩)]
        0 0 ⟨1, [], .normal⟩ 4).2 0 0 = .panicked) := by
  have h := promote_finalized_consistent_previous_iff_same_view 0 0 3 4
    ⟨0, [], .normal⟩ ⟨1, [], .normal⟩
  exact ⟨h.1, h.2 (by decide)⟩

end IR
